import Mathlib

/-!
Shallow embedding of `src/src/distgen_internal.cpp` (libdistgen) and proofs
of the specification's testable properties.

The embedding covers the distance registry (`addDist`), the size normalizer
(the recursive `gcd` helper and `adjustSize`), the dependency-chain builder
(the chain-generation loop of `init_memory_per_thread`) and the benchmark
executor (`runBench`).  Machine integers (`u64`, `int`) are modelled as
`Nat` (all the modelled arithmetic stays far below 2^64, so no wrap-around
is reachable); the `double` payload is modelled with exact rational
arithmetic; a C `assert` failure or the unreachable `default` branch is
modelled as an `Option` failure (`none`).
-/

namespace Distgen

/-- Search loop of `addDist` (`for (d = 0; d < distsUsed; d++) ...`):
returns `none` when `size` is already present (the early `return`),
otherwise `some d` where `d` is the insertion position — the first index
whose element is `< size`, or `distsUsed` when no such element exists. -/
def findInsertPos : List Nat → Nat → Option Nat
  | [], _ => some 0
  | x :: xs, s =>
    if x = s then none
    else if x < s then some 0
    else (findInsertPos xs s).map (· + 1)

/-- Net effect of `addDist` on the registry contents `distSize[0..distsUsed)`:
on a duplicate the early `return` leaves the registry unchanged; otherwise
the shift loop `for (dd = distsUsed; dd >= d; dd--) distSize[dd] = distSize[dd-1];`
moves `distSize[d..distsUsed)` up by one slot (its final iteration `dd = d`
writes a value that the following `distSize[d] = size` immediately
overwrites), and `distsUsed` is incremented — i.e. `size` is inserted at
position `d`.  The out-of-range read this loop performs when `d = 0` is
modelled separately by `shiftAccessIndices`. -/
def addDist (l : List Nat) (s : Nat) : List Nat :=
  match findInsertPos l s with
  | none => l
  | some d => l.take d ++ s :: l.drop d

/-- `addDist` with the capacity assertion `assert(distsUsed < MAXDISTCOUNT)`
made explicit: the assertion sits after the search loop, so a duplicate
returns early and never reaches it; a genuine insertion fails (`none`)
when the registry is full.  `cap` is the header constant `MAXDISTCOUNT`,
kept abstract. -/
def addDistChecked (cap : Nat) (l : List Nat) (s : Nat) : Option (List Nat) :=
  match findInsertPos l s with
  | none => some l
  | some d => if l.length < cap then some (l.take d ++ s :: l.drop d) else none

/-- Registry contents after a sequence of `addDist` calls starting from the
initial empty registry (`distsUsed = 0`). -/
def runAdds (cap : Nat) (inputs : List Nat) : Option (List Nat) :=
  inputs.foldlM (addDistChecked cap) []

/-- The `(write index, read index)` pairs touched by the shift loop
`for (dd = distsUsed; dd >= d; dd--) distSize[dd] = distSize[dd - 1];`
in loop order, as signed integers (`dd` and `d` are C `int`s): the loop
body executes for `dd = distsUsed, distsUsed - 1, ..., d`, writing
`distSize[dd]` and reading `distSize[dd - 1]`. -/
def shiftAccessIndices (used d : Nat) : List (Int × Int) :=
  (List.range (used + 1 - d)).map fun i => ((used : Int) - i, (used : Int) - i - 1)

/-- The recursive Euclidean `gcd` helper of the source:
`if (b == 0) return a; return gcd(b, a % b);`. -/
def distgenGcd (a b : Nat) : Nat :=
  if h : b = 0 then a else distgenGcd b (a % b)
termination_by b
decreasing_by exact Nat.mod_lt a (Nat.pos_of_ne_zero h)

/-- Fuel-indexed model of the `adjustSize` loop
`while (gcd(size, diff) > 1) size++; return size;`, with the `u64` counter
`size` modelled as an unbounded natural number.  `none` means the loop has
not finished within `fuel` iterations.  This version is adequate for runs
whose counter never crosses `2^64` — it then agrees with the bit-faithful
`adjustSizeFuelWrap` below (`adjustSizeFuelWrap_agree`); the normalizer's
own return-value contract and termination are settled against
`adjustSizeFuelWrap`. -/
def adjustSizeFuel : Nat → Nat → Nat → Option Nat
  | 0, _, _ => none
  | fuel + 1, size, diff =>
    if 1 < distgenGcd size diff then adjustSizeFuel fuel (size + 1) diff else some size

/-- Bit-faithful fuel-indexed model of the `adjustSize` loop: `size` is a
`u64`, so the increment `size++` wraps around modulo `2^64` (defined
behavior for C unsigned arithmetic).  `none` means the loop has not
finished within `fuel` iterations; the loop terminates on an input exactly
when some fuel returns `some`. -/
def adjustSizeFuelWrap : Nat → Nat → Nat → Option Nat
  | 0, _, _ => none
  | fuel + 1, size, diff =>
    if 1 < distgenGcd size diff then adjustSizeFuelWrap fuel ((size + 1) % 2 ^ 64) diff
    else some size

/-- Termination predicate for `adjustSize(size, diff)` under the
bit-faithful `u64` wrap semantics: some finite number of loop iterations
suffices. -/
def adjustTerminates (size diff : Nat) : Prop :=
  ∃ fuel B, adjustSizeFuelWrap fuel size diff = some B

/-- Modelled from the spec: `BLOCKLEN` is defined in a header that is not
under `src/`; the spec fixes the access block to one 64-byte cache line
(example scenarios: distance 4096 gives raw block count 64).  The entry
size 16 used below is asserted in the source itself
(`assert(sizeof(struct entry) == 16)` in `initBufs`). -/
def BLOCKLEN : Nat := 64

/-- Block count of a distance: `(distSize[d] + BLOCKLEN - 1) / BLOCKLEN`. -/
def blocksOf (size : Nat) : Nat := (size + BLOCKLEN - 1) / BLOCKLEN

/-- Stride policy of `initBufs`:
`blockDiff = pseudoRandom ? (blocks * 7 / 17) : 1;` applied to the raw
(pre-`adjustSize`) block count. -/
def strideOf (pseudoRandom : Bool) (blocks : Nat) : Nat :=
  if pseudoRandom then blocks * 7 / 17 else 1

/-- `idxMax = blocks * BLOCKLEN / sizeof(struct entry)` — buffer length in
entry units. -/
def idxMaxOf (blocks : Nat) : Nat := blocks * BLOCKLEN / 16

/-- `idxIncr = blockDiff * BLOCKLEN / sizeof(struct entry)` — stride in
entry units. -/
def idxIncrOf (blockDiff : Nat) : Nat := blockDiff * BLOCKLEN / 16

/-- One buffer unit `struct entry`: an 8-byte `double` payload `v`
(modelled with exact rational arithmetic) and an 8-byte next pointer,
modelled as an entry index into the same buffer (`none` = the null pointer
the initialization writes). -/
structure Entry where
  v : ℚ
  next : Option Nat

/-- A per-thread buffer, as a map from entry index to entry. -/
def Buffer : Type := Nat → Entry

/-- Initialization loop of `init_memory_per_thread`:
`buf[idx].v = (double)idx; buf[idx].next = 0;` for every entry. -/
def initBuf : Buffer := fun idx => ⟨(idx : ℚ), none⟩

/-- Assignment `buf[i].next = buf + j`. -/
def setNext (buf : Buffer) (i j : Nat) : Buffer :=
  fun x => if x = i then ⟨(buf x).v, some j⟩ else buf x

/-- `nextIdx = idx + idxIncr; if (nextIdx >= idxMax) nextIdx -= idxMax;` —
the wrap-by-subtraction step shared by the chain-generation loop of
`init_memory_per_thread` and cases 0/2 of `runBench`. -/
def wrapStep (idxMax idxIncr idx : Nat) : Nat :=
  if idxMax ≤ idx + idxIncr then idx + idxIncr - idxMax else idx + idxIncr

/-- Chain-generation loop of `init_memory_per_thread`
(`for (blk = 0; blk < blocks; blk++) ...`): `none` models a failure of
`assert(buf[idx].next == 0)`.  Returns the final `idx` together with the
linked buffer. -/
def buildChainAux (idxMax idxIncr : Nat) : Nat → Nat → Buffer → Option (Nat × Buffer)
  | 0, idx, buf => some (idx, buf)
  | blk + 1, idx, buf =>
    if ((buf idx).next).isSome then none
    else
      buildChainAux idxMax idxIncr blk (wrapStep idxMax idxIncr idx)
        (setNext buf idx (wrapStep idxMax idxIncr idx))

/-- The dependency-chain builder run on a freshly initialized buffer, for
block count `blocks` and stride `blockDiff` (loop starts at `idx = 0`). -/
def buildChain (blocks blockDiff : Nat) : Option (Nat × Buffer) :=
  buildChainAux (idxMaxOf blocks) (idxIncrOf blockDiff) blocks 0 initBuf

/-- Pointer chase `p = p->next` (the chain links are always assigned on the
offsets any traversal reaches, so the default is never exercised by the
theorems below). -/
def followNext (buf : Buffer) (p : Nat) : Nat := ((buf p).next).getD 0

/-- Entry offsets visited by an `n`-step dependency-chain traversal from
offset `p` — the access sequence of `runBench` case 1/3
(access `p->v`, then `p = p->next`). -/
def chainOffsets (buf : Buffer) : Nat → Nat → List Nat
  | 0, _ => []
  | n + 1, p => p :: chainOffsets buf n (followNext buf p)

/-- Entry offsets visited by an `n`-step sequential strided walk from
offset `idx` — the access sequence of `runBench` case 0/2
(access `buffer[idx].v`, then `idx += idxIncr` with wrap). -/
def seqOffsets (idxMax idxIncr : Nat) : Nat → Nat → List Nat
  | 0, _ => []
  | n + 1, idx => idx :: seqOffsets idxMax idxIncr n (wrapStep idxMax idxIncr idx)

/-- Helper for the cycle proofs: the entry offset reached from offset 0
after `k` strided steps over `B` blocks with stride `S` blocks
(4 entries of 16 bytes per 64-byte block). -/
def cyclePos (B S k : Nat) : Nat := 4 * (k * S % B)

/-- Per-distance derived data of `initBufs`:
`distBlocks[d]` and `distIter[d]`. -/
structure DistCfg where
  dBlocks : Nat
  dIter : Nat
deriving DecidableEq

/-- Derivation loop of `initBufs`:
`distBlocks[d] = (distSize[d] + BLOCKLEN - 1) / BLOCKLEN;`
`distIter[d] = distSize[0] / distSize[d];` over the registry contents. -/
def mkDists (sizes : List Nat) : List DistCfg :=
  match sizes with
  | [] => []
  | s0 :: _ => sizes.map fun s => ⟨blocksOf s, s0 / s⟩

/-- The constant `double v = 1.23` written by case 3 of `runBench`. -/
def constV : ℚ := 123 / 100

/-- Payload store `buf[i].v = q` (the next link is untouched). -/
def updateV (buf : Buffer) (i : Nat) (q : ℚ) : Buffer :=
  fun x => if x = i then ⟨q, (buf x).next⟩ else buf x

/-- `runBench` case 0 (no dep chain, no write): starting at the given
offset, `max` times: `lsum += buffer[idx].v;` then advance with wrap. -/
def walkSeqRead (buf : Buffer) (idxMax idxIncr : Nat) : Nat → Nat → ℚ → ℚ
  | 0, _, lsum => lsum
  | n + 1, idx, lsum =>
    walkSeqRead buf idxMax idxIncr n (wrapStep idxMax idxIncr idx) (lsum + (buf idx).v)

/-- `runBench` case 1 (dep chain, no write): `lsum += p->v; p = p->next;`. -/
def walkChainRead (buf : Buffer) : Nat → Nat → ℚ → ℚ
  | 0, _, lsum => lsum
  | n + 1, p, lsum => walkChainRead buf n (followNext buf p) (lsum + (buf p).v)

/-- `runBench` case 2 (no dep chain, write):
`buffer[idx].v += 1.0; lsum += buffer[idx].v;` then advance with wrap. -/
def walkSeqWrite (idxMax idxIncr : Nat) : Nat → Buffer → Nat → ℚ → Buffer × ℚ
  | 0, buf, _, lsum => (buf, lsum)
  | n + 1, buf, idx, lsum =>
    walkSeqWrite idxMax idxIncr n (updateV buf idx ((buf idx).v + 1))
      (wrapStep idxMax idxIncr idx) (lsum + ((buf idx).v + 1))

/-- `runBench` case 3 (dep chain, write):
`p->v += 1.0; lsum += p->v; p->v = v; p = p->next;` — the two stores to
`p->v` collapse to the final store of the constant `v`, the incremented
value is what `lsum` accumulates, and the link followed is unchanged by
the payload stores. -/
def walkChainWrite : Nat → Buffer → Nat → ℚ → Buffer × ℚ
  | 0, buf, _, lsum => (buf, lsum)
  | n + 1, buf, p, lsum =>
    walkChainWrite n (updateV buf p constV) (followNext buf p) (lsum + ((buf p).v + 1))

/-- One iteration of the `for k` loop body of `runBench` minus the access
counting: the `switch (benchType)` over one traversal of `maxSteps` blocks,
started at offset 0 (`idx = 0;` / `p = buffer;`).  The `default: assert(0)`
branch is the `none` case. -/
def runTraversal (benchType idxMax idxIncr maxSteps : Nat) (buf : Buffer) (lsum : ℚ) :
    Option (Buffer × ℚ) :=
  if benchType = 0 then some (buf, walkSeqRead buf idxMax idxIncr maxSteps 0 lsum)
  else if benchType = 1 then some (buf, walkChainRead buf maxSteps 0 lsum)
  else if benchType = 2 then some (walkSeqWrite idxMax idxIncr maxSteps buf 0 lsum)
  else if benchType = 3 then some (walkChainWrite maxSteps buf 0 lsum)
  else none

/-- The `for (k = 0; k < distIter[d]; k++)` loop of `runBench`:
`*aCount += distBlocks[d];` then one traversal. -/
def runDist (benchType idxMax idxIncr : Nat) (dc : DistCfg) :
    Nat → Buffer → ℚ → Nat → Option (Buffer × ℚ × Nat)
  | 0, buf, lsum, aCount => some (buf, lsum, aCount)
  | k + 1, buf, lsum, aCount =>
    match runTraversal benchType idxMax idxIncr dc.dBlocks buf lsum with
    | none => none
    | some (buf', lsum') => runDist benchType idxMax idxIncr dc k buf' lsum' (aCount + dc.dBlocks)

/-- The `for (d = 0; d < distsUsed; d++)` loop of `runBench`:
`lsum += buffer[0].v;` then the per-distance `k` loop. -/
def runDists (benchType idxMax idxIncr : Nat) :
    List DistCfg → Buffer → ℚ → Nat → Option (Buffer × ℚ × Nat)
  | [], buf, lsum, aCount => some (buf, lsum, aCount)
  | dc :: rest, buf, lsum, aCount =>
    match runDist benchType idxMax idxIncr dc dc.dIter buf (lsum + (buf 0).v) aCount with
    | none => none
    | some (buf', lsum', aCount') => runDists benchType idxMax idxIncr rest buf' lsum' aCount'

/-- The outer `for (size_t i = 0; i < iter; i++)` loop of `runBench`:
`lsum += buffer[0].v;` then all registered distances. -/
def runIters (benchType idxMax idxIncr : Nat) (dists : List DistCfg) :
    Nat → Buffer → ℚ → Nat → Option (Buffer × ℚ × Nat)
  | 0, buf, lsum, aCount => some (buf, lsum, aCount)
  | i + 1, buf, lsum, aCount =>
    match runDists benchType idxMax idxIncr dists buf (lsum + (buf 0).v) aCount with
    | none => none
    | some (buf', lsum', aCount') => runIters benchType idxMax idxIncr dists i buf' lsum' aCount'

/-- `runBench(buffer, iter, depChain, doWrite, sum, aCount)`:
`benchType = depChain + 2 * doWrite`, `lsum = *sum` on entry, `*sum = lsum`
on exit; the result triple is the final buffer, `*sum` and `*aCount`. -/
def runBench (dists : List DistCfg) (blocks blockDiff : Nat) (buf : Buffer)
    (iter depChain doWrite : Nat) (sum : ℚ) (aCount : Nat) : Option (Buffer × ℚ × Nat) :=
  runIters (depChain + 2 * doWrite) (idxMaxOf blocks) (idxIncrOf blockDiff) dists iter buf sum aCount

/-! ### Registry lemmas -/

theorem addDist_cons (x : Nat) (xs : List Nat) (s : Nat) :
    addDist (x :: xs) s =
      if x = s then x :: xs else if x < s then s :: x :: xs else x :: addDist xs s := by
  by_cases h1 : x = s
  · simp [addDist, findInsertPos, h1]
  · by_cases h2 : x < s
    · simp [addDist, findInsertPos, h1, h2]
    · cases h3 : findInsertPos xs s with
      | none => simp [addDist, findInsertPos, h1, h2, h3]
      | some d => simp [addDist, findInsertPos, h1, h2, h3]

theorem mem_addDist {l : List Nat} {s b : Nat} (h : b ∈ addDist l s) : b ∈ l ∨ b = s := by
  unfold addDist at h
  cases h3 : findInsertPos l s with
  | none => rw [h3] at h; exact Or.inl h
  | some d =>
    rw [h3] at h
    simp only [List.mem_append, List.mem_cons] at h
    rcases h with h | h | h
    · exact Or.inl (List.take_subset d l h)
    · exact Or.inr h
    · exact Or.inl (List.drop_subset d l h)

theorem sorted_addDist {l : List Nat} (s : Nat) (h : l.Sorted (· > ·)) :
    (addDist l s).Sorted (· > ·) := by
  induction l with
  | nil => simp [addDist, findInsertPos]
  | cons x xs ih =>
    rw [List.sorted_cons] at h
    obtain ⟨hx, hxs⟩ := h
    rw [addDist_cons]
    split
    · exact List.sorted_cons.mpr ⟨hx, hxs⟩
    · split
      · rename_i h1 h2
        refine List.sorted_cons.mpr ⟨?_, List.sorted_cons.mpr ⟨hx, hxs⟩⟩
        intro b hb
        rcases List.mem_cons.mp hb with rfl | hb
        · exact h2
        · exact lt_trans (hx b hb) h2
      · rename_i h1 h2
        refine List.sorted_cons.mpr ⟨?_, ih hxs⟩
        intro b hb
        rcases mem_addDist hb with hb | rfl
        · exact hx b hb
        · omega

theorem addDistChecked_some {cap : Nat} {l l' : List Nat} {s : Nat}
    (h : addDistChecked cap l s = some l') : l' = l ∨ l' = addDist l s := by
  unfold addDistChecked at h
  split at h
  · injection h with h
    exact Or.inl h.symm
  · rename_i d h3
    split at h
    · injection h with h
      refine Or.inr ?_
      unfold addDist
      rw [h3]
      exact h.symm
    · cases h

theorem sorted_foldAdds (cap : Nat) :
    ∀ (inputs acc l : List Nat), acc.Sorted (· > ·) →
      List.foldlM (addDistChecked cap) acc inputs = some l → l.Sorted (· > ·) := by
  intro inputs
  induction inputs with
  | nil =>
    intro acc l hs h
    simp only [List.foldlM_nil] at h
    injection h with h
    rwa [← h]
  | cons a rest ih =>
    intro acc l hs h
    rw [List.foldlM_cons] at h
    cases hc : addDistChecked cap acc a with
    | none => rw [hc] at h; cases h
    | some acc' =>
      rw [hc] at h
      simp only [Option.bind_eq_bind, Option.some_bind] at h
      rcases addDistChecked_some hc with rfl | hEq
      · exact ih acc' l hs h
      · exact ih acc' l (hEq ▸ sorted_addDist a hs) h

theorem findInsertPos_of_mem {l : List Nat} {s : Nat} (hs : l.Sorted (· > ·))
    (hmem : s ∈ l) : findInsertPos l s = none := by
  induction l with
  | nil => cases hmem
  | cons x xs ih =>
    rw [List.sorted_cons] at hs
    rcases List.mem_cons.mp hmem with rfl | hmem'
    · simp [findInsertPos]
    · have hgt : x > s := hs.1 s hmem'
      unfold findInsertPos
      rw [if_neg (by omega), if_neg (by omega), ih hs.2 hmem']
      rfl

/-! ### Size-normalizer lemmas -/

theorem distgenGcd_eq_gcd (a b : Nat) : distgenGcd a b = Nat.gcd a b := by
  induction b using Nat.strong_induction_on generalizing a with
  | _ b ih =>
    rw [distgenGcd]
    split
    · rename_i h; subst h; simp
    · rename_i h
      rw [ih (a % b) (Nat.mod_lt a (Nat.pos_of_ne_zero h))]
      rw [Nat.gcd_comm a b, Nat.gcd_rec b a]
      exact Nat.gcd_comm b (a % b)

theorem adjustSizeFuel_some {fuel size diff B : Nat}
    (h : adjustSizeFuel fuel size diff = some B) :
    distgenGcd B diff ≤ 1 ∧ size ≤ B := by
  induction fuel generalizing size with
  | zero => cases h
  | succ fuel ih =>
    rw [adjustSizeFuel] at h
    split at h
    · obtain ⟨h1, h2⟩ := ih h
      exact ⟨h1, by omega⟩
    · rename_i hg
      injection h with h
      subst h
      exact ⟨by omega, le_refl _⟩

theorem distgenGcd_zero_right (a : Nat) : distgenGcd a 0 = a := by
  rw [distgenGcd]
  simp

theorem adjustSizeFuelWrap_agree (fuel : Nat) :
    ∀ (size diff : Nat), size + fuel < 2 ^ 64 →
      adjustSizeFuelWrap fuel size diff = adjustSizeFuel fuel size diff := by
  induction fuel with
  | zero => intro size diff h; rfl
  | succ fuel ih =>
    intro size diff h
    rw [adjustSizeFuelWrap, adjustSizeFuel]
    by_cases hg : 1 < distgenGcd size diff
    · rw [if_pos hg, if_pos hg, Nat.mod_eq_of_lt (by omega), ih (size + 1) diff (by omega)]
    · rw [if_neg hg, if_neg hg]

theorem adjustSizeFuelWrap_gcd (fuel : Nat) :
    ∀ (size diff B : Nat), adjustSizeFuelWrap fuel size diff = some B →
      distgenGcd B diff ≤ 1 := by
  induction fuel with
  | zero => intro size diff B h; cases h
  | succ fuel ih =>
    intro size diff B h
    rw [adjustSizeFuelWrap] at h
    split at h
    · exact ih _ _ _ h
    · rename_i hg
      injection h with h
      subst h
      omega

theorem adjustSizeFuelWrap_from_one (fuel diff B : Nat)
    (h : adjustSizeFuelWrap fuel 1 diff = some B) : B = 1 := by
  cases fuel with
  | zero => cases h
  | succ fuel =>
    rw [adjustSizeFuelWrap] at h
    have hg : distgenGcd 1 diff = 1 := by rw [distgenGcd_eq_gcd, Nat.gcd_one_left]
    rw [hg, if_neg (by omega)] at h
    injection h with h
    omega

theorem adjustSizeFuelWrap_from_zero (fuel diff B : Nat)
    (h : adjustSizeFuelWrap fuel 0 diff = some B) : B ≤ 1 := by
  cases fuel with
  | zero => cases h
  | succ fuel =>
    rw [adjustSizeFuelWrap] at h
    by_cases hd : 1 < distgenGcd 0 diff
    · rw [if_pos hd] at h
      have h1 : (0 + 1) % 2 ^ 64 = 1 := by norm_num
      rw [h1] at h
      have := adjustSizeFuelWrap_from_one fuel diff B h
      omega
    · rw [if_neg hd] at h
      injection h with h
      omega

theorem adjustSizeFuelWrap_ge (fuel : Nat) :
    ∀ (size diff B : Nat), size < 2 ^ 64 →
      adjustSizeFuelWrap fuel size diff = some B → size ≤ B ∨ B ≤ 1 := by
  induction fuel with
  | zero => intro size diff B hlt h; cases h
  | succ fuel ih =>
    intro size diff B hlt h
    rw [adjustSizeFuelWrap] at h
    split at h
    · by_cases htop : size + 1 < 2 ^ 64
      · rw [Nat.mod_eq_of_lt htop] at h
        rcases ih (size + 1) diff B htop h with h1 | h1
        · exact Or.inl (by omega)
        · exact Or.inr h1
      · have hmod : (size + 1) % 2 ^ 64 = 0 := by
          have heq : size + 1 = 2 ^ 64 := by omega
          rw [heq]
          exact Nat.mod_self _
        rw [hmod] at h
        exact Or.inr (adjustSizeFuelWrap_from_zero fuel diff B h)
    · injection h with h
      subst h
      exact Or.inl (le_refl _)

theorem adjustSizeFuelWrap_run_to_zero (fuel : Nat) :
    ∀ size : Nat, 2 ≤ size → size < 2 ^ 64 → size + fuel = 2 ^ 64 + 1 →
      adjustSizeFuelWrap fuel size 0 = some 0 := by
  induction fuel with
  | zero =>
    intro size h2 hlt hsum
    exact absurd hsum (by omega)
  | succ fuel ih =>
    intro size h2 hlt hsum
    rw [adjustSizeFuelWrap, distgenGcd_zero_right, if_pos (by omega)]
    by_cases htop : size + 1 < 2 ^ 64
    · rw [Nat.mod_eq_of_lt htop]
      exact ih (size + 1) (by omega) htop (by omega)
    · have hf : fuel = 1 := by omega
      have hmod : (size + 1) % 2 ^ 64 = 0 := by
        have heq : size + 1 = 2 ^ 64 := by omega
        rw [heq]
        exact Nat.mod_self _
      rw [hmod, hf, adjustSizeFuelWrap, distgenGcd_zero_right, if_neg (by omega)]

theorem adjustSizeFuelWrap_reach (n : Nat) :
    ∀ (size diff : Nat), size + n < 2 ^ 64 → distgenGcd (size + n) diff ≤ 1 →
      ∃ B, adjustSizeFuelWrap (n + 1) size diff = some B := by
  induction n with
  | zero =>
    intro size diff hlt hg
    rw [Nat.add_zero] at hg
    refine ⟨size, ?_⟩
    rw [adjustSizeFuelWrap, if_neg (by omega)]
  | succ n ih =>
    intro size diff hlt hg
    by_cases hguard : 1 < distgenGcd size diff
    · rw [adjustSizeFuelWrap, if_pos hguard, Nat.mod_eq_of_lt (by omega)]
      apply ih (size + 1) diff (by omega)
      have heq : size + 1 + n = size + (n + 1) := by omega
      rw [heq]
      exact hg
    · exact ⟨size, by rw [adjustSizeFuelWrap, if_neg hguard]⟩

/-! ### Cycle arithmetic for the dependency-chain builder -/

theorem idxMaxOf_eq (n : Nat) : idxMaxOf n = 4 * n := by
  unfold idxMaxOf BLOCKLEN; omega

theorem idxIncrOf_eq (n : Nat) : idxIncrOf n = 4 * n := by
  unfold idxIncrOf BLOCKLEN; omega

theorem cyclePos_congr {B S j k : Nat} (h : j ≡ k [MOD B]) :
    cyclePos B S j = cyclePos B S k := by
  unfold cyclePos
  exact congrArg (fun t => 4 * t) (h.mul_right S)

theorem cyclePos_step {B S : Nat} (hB : 1 ≤ B) (hS : S ≤ B) (k : Nat) :
    wrapStep (4 * B) (4 * S) (cyclePos B S k) = cyclePos B S (k + 1) := by
  have ha : k * S % B < B := Nat.mod_lt _ hB
  have hmod : (k * S % B + S) % B = (k + 1) * S % B := by
    have h2 : k * S % B + S ≡ k * S + S [MOD B] := (Nat.mod_modEq (k * S) B).add_right S
    have h3 : (k * S % B + S) % B = (k * S + S) % B := h2
    rw [h3, Nat.succ_mul]
  have hwrap : wrapStep (4 * B) (4 * S) (cyclePos B S k) =
      if 4 * B ≤ 4 * (k * S % B) + 4 * S then 4 * (k * S % B) + 4 * S - 4 * B
      else 4 * (k * S % B) + 4 * S := rfl
  have htarget : cyclePos B S (k + 1) = 4 * ((k * S % B + S) % B) := by
    unfold cyclePos
    rw [hmod]
  rw [hwrap, htarget]
  by_cases hc : B ≤ k * S % B + S
  · rw [if_pos (by omega), Nat.mod_eq_sub_mod hc,
      Nat.mod_eq_of_lt (by omega : k * S % B + S - B < B)]
    omega
  · rw [if_neg (by omega), Nat.mod_eq_of_lt (by omega : k * S % B + S < B)]
    omega

theorem mulMod_inj {B S : Nat} (hco : Nat.gcd B S = 1) {j k : Nat}
    (hj : j < B) (hk : k < B) (h : j * S % B = k * S % B) : j = k := by
  have hmeq : j ≡ k [MOD B] := Nat.ModEq.cancel_right_of_coprime hco h
  have h2 : j % B = k % B := hmeq
  rwa [Nat.mod_eq_of_lt hj, Nat.mod_eq_of_lt hk] at h2

theorem cyclePos_inj {B S : Nat} (hco : Nat.gcd B S = 1) {j k : Nat}
    (hj : j < B) (hk : k < B) (h : cyclePos B S j = cyclePos B S k) : j = k := by
  unfold cyclePos at h
  exact mulMod_inj hco hj hk (by omega)

theorem cyclePos_surj {B S : Nat} (hB : 1 ≤ B) (hco : Nat.gcd B S = 1) {j : Nat}
    (hj : j < B) : ∃ k, k < B ∧ cyclePos B S k = 4 * j := by
  classical
  have hinj : Set.InjOn (fun k => k * S % B) (Finset.range B) := by
    intro a ha b hb hab
    simp only [Finset.coe_range, Set.mem_Iio] at ha hb
    exact mulMod_inj hco ha hb hab
  have himg : (Finset.range B).image (fun k => k * S % B) = Finset.range B := by
    apply Finset.eq_of_subset_of_card_le
    · intro x hx
      simp only [Finset.mem_image, Finset.mem_range] at hx
      obtain ⟨k, _, rfl⟩ := hx
      exact Finset.mem_range.mpr (Nat.mod_lt _ hB)
    · rw [Finset.card_image_of_injOn hinj]
  have hjmem : j ∈ (Finset.range B).image (fun k => k * S % B) := by
    rw [himg]; exact Finset.mem_range.mpr hj
  simp only [Finset.mem_image, Finset.mem_range] at hjmem
  obtain ⟨k, hk, hke⟩ := hjmem
  exact ⟨k, hk, by unfold cyclePos; omega⟩

theorem buildChainAux_spec {B S : Nat} (hB : 1 ≤ B) (hS : S ≤ B) (hco : Nat.gcd B S = 1) :
    ∀ (n : Nat), ∀ (k : Nat) (buf : Buffer), n + k = B →
      (∀ j, j < k → (buf (cyclePos B S j)).next = some (cyclePos B S (j + 1))) →
      (∀ i, ((buf i).next).isSome = true → ∃ j, j < k ∧ i = cyclePos B S j) →
      ∃ buf', buildChainAux (4 * B) (4 * S) n (cyclePos B S k) buf
          = some (cyclePos B S B, buf') ∧
        (∀ j, j < B → (buf' (cyclePos B S j)).next = some (cyclePos B S (j + 1))) ∧
        (∀ i, ((buf' i).next).isSome = true → ∃ j, j < B ∧ i = cyclePos B S j) := by
  intro n
  induction n with
  | zero =>
    intro k buf hnk hlink hdom
    have hkB : k = B := by omega
    subst hkB
    exact ⟨buf, rfl, hlink, hdom⟩
  | succ n ih =>
    intro k buf hnk hlink hdom
    have hkB : k < B := by omega
    have hnone : (buf (cyclePos B S k)).next = none := by
      cases hcase : (buf (cyclePos B S k)).next with
      | none => rfl
      | some t =>
        obtain ⟨j, hj, hje⟩ := hdom (cyclePos B S k) (by rw [hcase]; rfl)
        have hjk := cyclePos_inj hco hkB (by omega : j < B) hje
        omega
    rw [buildChainAux, if_neg (by rw [hnone]; simp), cyclePos_step hB hS k]
    refine ih (k + 1) (setNext buf (cyclePos B S k) (cyclePos B S (k + 1))) (by omega) ?_ ?_
    · intro j hj
      by_cases hjk : j = k
      · subst hjk
        unfold setNext
        rw [if_pos rfl]
      · have hne : cyclePos B S j ≠ cyclePos B S k := fun hEq =>
          hjk (cyclePos_inj hco (by omega) hkB hEq)
        unfold setNext
        rw [if_neg hne]
        exact hlink j (by omega)
    · intro i hi
      by_cases hik : i = cyclePos B S k
      · exact ⟨k, by omega, hik⟩
      · unfold setNext at hi
        rw [if_neg hik] at hi
        obtain ⟨j, hj, hje⟩ := hdom i hi
        exact ⟨j, by omega, hje⟩

theorem buildChain_spec {B S : Nat} (hB : 1 ≤ B) (hS : S ≤ B) (hco : Nat.gcd B S = 1) :
    ∃ buf', buildChain B S = some (0, buf') ∧
      (∀ j, j < B → (buf' (cyclePos B S j)).next = some (cyclePos B S (j + 1))) ∧
      (∀ i, ((buf' i).next).isSome = true → ∃ j, j < B ∧ i = cyclePos B S j) := by
  have h0 : cyclePos B S 0 = 0 := by unfold cyclePos; simp
  have hBB : cyclePos B S B = 0 := by unfold cyclePos; simp [Nat.mul_mod_right]
  obtain ⟨buf', hrun, hlink, hdom⟩ := buildChainAux_spec hB hS hco B 0 initBuf (by omega)
    (fun j hj => absurd hj (Nat.not_lt_zero j))
    (by intro i hi; simp [initBuf] at hi)
  rw [h0, hBB] at hrun
  refine ⟨buf', ?_, hlink, hdom⟩
  unfold buildChain
  rw [idxMaxOf_eq, idxIncrOf_eq]
  exact hrun

theorem followNext_cycle {B S : Nat} (hB : 1 ≤ B) {buf' : Buffer}
    (hlink : ∀ j, j < B → (buf' (cyclePos B S j)).next = some (cyclePos B S (j + 1))) :
    ∀ k, followNext buf' (cyclePos B S k) = cyclePos B S (k + 1) := by
  intro k
  have e1 : cyclePos B S k = cyclePos B S (k % B) := cyclePos_congr (Nat.mod_modEq k B).symm
  have e2 : cyclePos B S (k % B + 1) = cyclePos B S (k + 1) :=
    cyclePos_congr ((Nat.mod_modEq k B).add_right 1)
  rw [e1, ← e2]
  unfold followNext
  rw [hlink (k % B) (Nat.mod_lt _ hB)]
  rfl

theorem chainOffsets_cycle {B S : Nat} {buf' : Buffer}
    (hall : ∀ k, followNext buf' (cyclePos B S k) = cyclePos B S (k + 1)) :
    ∀ (n k : Nat), chainOffsets buf' n (cyclePos B S k)
      = (List.range' k n).map (cyclePos B S) := by
  intro n
  induction n with
  | zero => intro k; rfl
  | succ n ih =>
    intro k
    rw [chainOffsets, hall k, ih (k + 1), List.range'_succ, List.map_cons]

theorem followNext_iterate {B S : Nat} {buf' : Buffer}
    (hall : ∀ k, followNext buf' (cyclePos B S k) = cyclePos B S (k + 1)) :
    ∀ (n k : Nat), (followNext buf')^[n] (cyclePos B S k) = cyclePos B S (k + n) := by
  intro n
  induction n with
  | zero => intro k; simp
  | succ n ih =>
    intro k
    rw [Function.iterate_succ_apply, hall k, ih (k + 1)]
    congr 1
    omega

theorem seqOffsets_cycle {B S : Nat} (hB : 1 ≤ B) (hS : S ≤ B) :
    ∀ (n k : Nat), seqOffsets (4 * B) (4 * S) n (cyclePos B S k)
      = (List.range' k n).map (cyclePos B S) := by
  intro n
  induction n with
  | zero => intro k; rfl
  | succ n ih =>
    intro k
    rw [seqOffsets, cyclePos_step hB hS k, ih (k + 1), List.range'_succ, List.map_cons]

theorem strideOf_le {B0 : Nat} (pr : Bool) (hB0 : 1 ≤ B0) : strideOf pr B0 ≤ B0 := by
  cases pr <;> simp [strideOf] <;> omega

theorem adjust_B0_zero {pr : Bool} {fuel B : Nat}
    (h : adjustSizeFuel fuel 0 (strideOf pr 0) = some B) : B = 0 := by
  cases fuel with
  | zero => cases h
  | succ fuel =>
    rw [adjustSizeFuel] at h
    have hg : distgenGcd 0 (strideOf pr 0) ≤ 1 := by
      rw [distgenGcd_eq_gcd, Nat.gcd_zero_left]
      cases pr <;> simp [strideOf]
    rw [if_neg (by omega)] at h
    injection h with h
    omega

theorem progPair_facts {pr : Bool} {D fuel B : Nat}
    (h : adjustSizeFuel fuel (blocksOf D) (strideOf pr (blocksOf D)) = some B) :
    blocksOf D ≤ B ∧
      (B = 0 ∨ (1 ≤ B ∧ strideOf pr (blocksOf D) ≤ B ∧
        Nat.gcd B (strideOf pr (blocksOf D)) = 1)) := by
  obtain ⟨hg, hle⟩ := adjustSizeFuel_some h
  rw [distgenGcd_eq_gcd] at hg
  refine ⟨hle, ?_⟩
  rcases Nat.eq_zero_or_pos B with hB | hB
  · exact Or.inl hB
  · right
    have hB0 : 1 ≤ blocksOf D := by
      by_contra hc
      have hz : blocksOf D = 0 := by omega
      rw [hz] at h
      have := adjust_B0_zero h
      omega
    refine ⟨hB, le_trans (strideOf_le pr hB0) hle, ?_⟩
    have hnz : Nat.gcd B (strideOf pr (blocksOf D)) ≠ 0 := by
      intro hzz
      obtain ⟨h1, h2⟩ := Nat.gcd_eq_zero_iff.mp hzz
      omega
    omega

/-! ### Claims C2, C3, C5, C6, C7 -/

/-- Claim C2, counterexample: at the policy-reachable input `B0 = 2`,
`S = 0` (pseudo-random on, raw block count 2) the u64 counter runs
`2, 3, …, 2^64 - 1`, wraps to `0`, the guard `gcd(0,0) > 1` is false, and
`adjustSize` returns `B = 0` — violating both `gcd(B,S) = 1`
(`gcd(0,0) = 0`) and `B ≥ B0` (`0 < 2`), so the claim as stated is false. -/
theorem adjustSize_wrap_returns_zero :
    adjustSizeFuelWrap (2 ^ 64 - 1) 2 0 = some 0 ∧ distgenGcd 0 0 ≠ 1 ∧ ¬(2 ≤ 0) := by
  refine ⟨?_, ?_, by omega⟩
  · exact adjustSizeFuelWrap_run_to_zero (2 ^ 64 - 1) 2 (by norm_num) (by norm_num) (by norm_num)
  · rw [distgenGcd_zero_right]
    omega

/-- Claim C2, amended: for every u64 block count request `B0 < 2^64` and
stride candidate `S`, whenever `adjustSize(B0, S)` returns a value `B`,
`S` is unchanged (it is passed by value), `gcd(B, S) = 1` unless the
result is `B = 0` with `S = 0`, and either `B ≥ B0` or the u64 size
counter wrapped around `2^64`, after which the loop stops at `B ≤ 1`
(`B = 0` exactly when `S = 0`, as at `B0 = 2`, `S = 0`). -/
theorem adjustSize_result_coprime_ge (fuel B0 S B : Nat) (hB0 : B0 < 2 ^ 64)
    (h : adjustSizeFuelWrap fuel B0 S = some B) :
    (B0 ≤ B ∨ B ≤ 1) ∧ (¬(B = 0 ∧ S = 0) → Nat.gcd B S = 1) := by
  refine ⟨adjustSizeFuelWrap_ge fuel B0 S B hB0 h, fun hnz => ?_⟩
  have hg := adjustSizeFuelWrap_gcd fuel B0 S B h
  rw [distgenGcd_eq_gcd] at hg
  rcases Nat.eq_zero_or_pos (Nat.gcd B S) with hz | hp
  · obtain ⟨h1, h2⟩ := Nat.gcd_eq_zero_iff.mp hz
    exact absurd ⟨h1, h2⟩ hnz
  · omega

theorem adjustSize_result_coprime_ge_witness :
    ((64 : Nat) < 2 ^ 64 ∧ adjustSizeFuelWrap 4 64 26 = some 67) ∧
      (64 ≤ 67 ∨ 67 ≤ 1) ∧ (¬(67 = 0 ∧ 26 = 0) → Nat.gcd 67 26 = 1) := by
  have hlt : (64 : Nat) < 2 ^ 64 := by norm_num
  have h : adjustSizeFuelWrap 4 64 26 = some 67 := by
    norm_num [adjustSizeFuelWrap, distgenGcd_eq_gcd]
  exact ⟨⟨hlt, h⟩, adjustSize_result_coprime_ge 4 64 26 67 hlt h⟩

/-- Claim C3: under the source's u64 wrap semantics for the size counter,
`adjustSize` terminates for every block count the stride policy of
`initBufs` can run it with — every positive block count derived from a
u64 distance `D` (at most `(2^64 - 1 + 63)/64 ≤ 2^58` blocks) — with the
policy stride (1 with pseudo-random off, `blocks*7/17` with it on): for
stride 0 (raw blocks 2) the counter wraps past `2^64 - 1` and the loop
exits at size 0; for stride 1 it exits immediately; for stride `S ≥ 2` a
size coprime to `S` exists within `S + 1` increments, well below `2^64`. -/
theorem adjustSize_terminates_policy (pr : Bool) (D : Nat) (hD : D < 2 ^ 64)
    (hpos : 1 ≤ blocksOf D) :
    adjustTerminates (blocksOf D) (strideOf pr (blocksOf D)) := by
  have hp58 : (2 : Nat) ^ 58 = 288230376151711744 := by norm_num
  have hp64 : (2 : Nat) ^ 64 = 18446744073709551616 := by norm_num
  have hmax : blocksOf D ≤ 2 ^ 58 := by
    unfold blocksOf BLOCKLEN
    omega
  cases pr with
  | false =>
    refine ⟨1, blocksOf D, ?_⟩
    have hg : distgenGcd (blocksOf D) (strideOf false (blocksOf D)) = 1 := by
      have h1 : strideOf false (blocksOf D) = 1 := by simp [strideOf]
      rw [h1, distgenGcd_eq_gcd, Nat.gcd_one_right]
    rw [adjustSizeFuelWrap, hg, if_neg (by omega)]
  | true =>
    by_cases h1 : blocksOf D = 1
    · rw [h1]
      refine ⟨1, 1, ?_⟩
      have hg : distgenGcd 1 (strideOf true 1) = 1 := by
        rw [distgenGcd_eq_gcd, Nat.gcd_one_left]
      rw [adjustSizeFuelWrap, hg, if_neg (by omega)]
    · by_cases h2 : blocksOf D = 2
      · rw [h2]
        have hS0 : strideOf true 2 = 0 := by norm_num [strideOf]
        rw [hS0]
        refine ⟨2 ^ 64 - 1, 0, ?_⟩
        exact adjustSizeFuelWrap_run_to_zero (2 ^ 64 - 1) 2 (by norm_num) (by norm_num)
          (by norm_num)
      · have hB3 : 3 ≤ blocksOf D := by omega
        set B0 := blocksOf D with hB0def
        set S := strideOf true B0 with hSdef
        have hSval : S = B0 * 7 / 17 := by rw [hSdef]; simp [strideOf]
        have hS1 : 1 ≤ S := by rw [hSval]; omega
        have hSle : S ≤ B0 := by rw [hSval]; omega
        rcases Nat.lt_or_ge S 2 with hS2 | hS2
        · have hSone : S = 1 := by omega
          refine ⟨1, B0, ?_⟩
          have hg : distgenGcd B0 S = 1 := by
            rw [hSone, distgenGcd_eq_gcd, Nat.gcd_one_right]
          rw [adjustSizeFuelWrap, hg, if_neg (by omega)]
        · have ht : B0 % S < S := Nat.mod_lt _ (by omega)
          have hdiv := Nat.div_add_mod B0 S
          have hmul : S * (B0 / S + 1) = S * (B0 / S) + S := by ring
          have hval : B0 + (1 + S - B0 % S) = S * (B0 / S + 1) + 1 := by omega
          have hmod : (B0 + (1 + S - B0 % S)) % S = 1 := by
            rw [hval, Nat.mul_add_mod]
            exact Nat.mod_eq_of_lt (by omega)
          have hgcd : Nat.gcd (B0 + (1 + S - B0 % S)) S = 1 := by
            rw [Nat.gcd_comm, Nat.gcd_rec, hmod]
            exact Nat.gcd_one_left S
          have hbound : B0 + (1 + S - B0 % S) < 2 ^ 64 := by omega
          obtain ⟨B, hB⟩ := adjustSizeFuelWrap_reach (1 + S - B0 % S) B0 S hbound
            (by rw [distgenGcd_eq_gcd, hgcd])
          exact ⟨(1 + S - B0 % S) + 1, B, hB⟩

theorem adjustSize_terminates_policy_witness :
    ((1088 : Nat) < 2 ^ 64 ∧ 1 ≤ blocksOf 1088) ∧
      adjustTerminates (blocksOf 1088) (strideOf true (blocksOf 1088)) := by
  have hD : (1088 : Nat) < 2 ^ 64 := by norm_num
  have hpos : 1 ≤ blocksOf 1088 := by norm_num [blocksOf, BLOCKLEN]
  exact ⟨⟨hD, hpos⟩, adjustSize_terminates_policy true 1088 hD hpos⟩

/-- Claim C5 (code bug): on the very first registration (`distsUsed = 0`,
hence insertion position `d = 0`) the shift loop of `addDist` runs its
final iteration with `dd = 0` and reads `distSize[dd - 1] = distSize[-1]`,
an index below 0 — contradicting the claim that every access index lies in
`[0, MAXDISTCOUNT)`. -/
theorem addDist_shift_reads_minus_one :
    findInsertPos [] 4096 = some 0 ∧
      ((0 : Int), (-1 : Int)) ∈ shiftAccessIndices 0 0 ∧ (-1 : Int) < 0 :=
  ⟨rfl, by decide, by decide⟩

/-- Claim C6: after any sequence of `addDist` registrations that the
capacity assertion lets through, starting from the empty registry, the
registry contents are strictly descending and duplicate-free. -/
theorem registry_sorted_nodup (cap : Nat) (inputs l : List Nat)
    (h : runAdds cap inputs = some l) : l.Sorted (· > ·) ∧ l.Nodup := by
  have hs := sorted_foldAdds cap inputs [] l (by simp) h
  exact ⟨hs, List.Pairwise.imp (fun hab => ne_of_gt hab) hs⟩

theorem registry_sorted_nodup_witness :
    runAdds 16 [1024, 4096, 1024, 64] = some [4096, 1024, 64] ∧
      List.Sorted (· > ·) [4096, 1024, 64] ∧ List.Nodup [4096, 1024, 64] := by
  refine ⟨by decide, ?_⟩
  have h := registry_sorted_nodup 16 [1024, 4096, 1024, 64] [4096, 1024, 64] (by decide)
  exact ⟨h.1, h.2⟩

/-- Claim C7: calling `addDist` with a value already present in a
reachable registry state leaves the registry completely unchanged (the
search loop returns early, before the shift loop and the `distsUsed`
increment, and even before the capacity assertion). -/
theorem addDist_duplicate_noop (cap : Nat) (inputs l : List Nat) (s : Nat)
    (hreach : runAdds cap inputs = some l) (hmem : s ∈ l) :
    addDistChecked cap l s = some l := by
  have hs := sorted_foldAdds cap inputs [] l (by simp) hreach
  unfold addDistChecked
  rw [findInsertPos_of_mem hs hmem]

theorem addDist_duplicate_noop_witness :
    runAdds 16 [4096, 1024] = some [4096, 1024] ∧ 1024 ∈ [4096, 1024] ∧
      addDistChecked 16 [4096, 1024] 1024 = some [4096, 1024] :=
  ⟨by decide, by decide,
    addDist_duplicate_noop 16 [4096, 1024] [4096, 1024] 1024 (by decide) (by decide)⟩

/-! ### Claims C1, C4 -/

/-- Claim C1: for every pair `(B, S) = (blocks, blockDiff)` the
dependency-chain builder actually runs with (the `adjustSize` result for
some distance `D` and pseudo-random flag, which is coprime whenever
`B ≥ 1`), the link-assignment loop succeeds (`assert(buf[idx].next == 0)`
never fails, so every offset is linked exactly once), exactly the `B`
block-start offsets `4*j, j < B` receive an outgoing link, and following
the links from entry offset 0 returns to offset 0 after exactly `B`
steps, visiting every block-start offset exactly once. -/
theorem chainBuilder_single_cycle (pr : Bool) (D fuel B : Nat)
    (hadj : adjustSizeFuel fuel (blocksOf D) (strideOf pr (blocksOf D)) = some B) :
    ∃ buf, buildChain B (strideOf pr (blocksOf D)) = some (0, buf) ∧
      (∀ j, j < B → ((buf (4 * j)).next).isSome = true) ∧
      (∀ i, ((buf i).next).isSome = true → ∃ j, j < B ∧ i = 4 * j) ∧
      (followNext buf)^[B] 0 = 0 ∧
      (chainOffsets buf B 0).Nodup ∧
      (∀ x, x ∈ chainOffsets buf B 0 ↔ ∃ j, j < B ∧ x = 4 * j) := by
  set S := strideOf pr (blocksOf D) with hSdef
  obtain ⟨hle, hcases⟩ := progPair_facts hadj
  rcases hcases with hB0 | ⟨hB, hS, hco⟩
  · subst hB0
    refine ⟨initBuf, rfl, ?_, ?_, rfl, by simp [chainOffsets], ?_⟩
    · intro j hj
      exact absurd hj (Nat.not_lt_zero j)
    · intro i hi
      simp [initBuf] at hi
    · intro x
      simp [chainOffsets]
  · obtain ⟨buf', hrun, hlink, hdom⟩ := buildChain_spec hB hS hco
    have hall := followNext_cycle hB hlink
    have h0 : cyclePos B S 0 = 0 := by unfold cyclePos; simp
    have hoffs : chainOffsets buf' B 0 = (List.range' 0 B).map (cyclePos B S) := by
      have hc := chainOffsets_cycle hall B 0
      rw [h0] at hc
      exact hc
    refine ⟨buf', hrun, ?_, ?_, ?_, ?_, ?_⟩
    · intro j hj
      obtain ⟨k, hk, hke⟩ := cyclePos_surj hB hco hj
      rw [← hke, hlink k hk]
      rfl
    · intro i hi
      obtain ⟨j, _, hje⟩ := hdom i hi
      exact ⟨j * S % B, Nat.mod_lt _ hB, by rw [hje]; rfl⟩
    · have hiter := followNext_iterate hall B 0
      rw [h0] at hiter
      rw [hiter]
      unfold cyclePos
      simp [Nat.mul_mod_right, Nat.mul_mod_left]
    · rw [hoffs]
      refine List.Nodup.map_on ?_ (List.nodup_range' 0 B)
      intro a ha b hb hab
      rw [List.mem_range'_1] at ha hb
      exact cyclePos_inj hco (by omega) (by omega) hab
    · intro x
      rw [hoffs]
      constructor
      · intro hx
        rw [List.mem_map] at hx
        obtain ⟨a, _, hax⟩ := hx
        exact ⟨a * S % B, Nat.mod_lt _ hB, by rw [← hax]; rfl⟩
      · rintro ⟨j, hj, rfl⟩
        obtain ⟨k, hk, hke⟩ := cyclePos_surj hB hco hj
        rw [List.mem_map]
        exact ⟨k, by rw [List.mem_range'_1]; omega, hke⟩

theorem chainBuilder_single_cycle_witness :
    (adjustSizeFuel 1 (blocksOf 1) (strideOf false (blocksOf 1)) = some 1) ∧
      ∃ buf, buildChain 1 (strideOf false (blocksOf 1)) = some (0, buf) ∧
        (∀ j, j < 1 → ((buf (4 * j)).next).isSome = true) ∧
        (∀ i, ((buf i).next).isSome = true → ∃ j, j < 1 ∧ i = 4 * j) ∧
        (followNext buf)^[1] 0 = 0 ∧
        (chainOffsets buf 1 0).Nodup ∧
        (∀ x, x ∈ chainOffsets buf 1 0 ↔ ∃ j, j < 1 ∧ x = 4 * j) := by
  have h : adjustSizeFuel 1 (blocksOf 1) (strideOf false (blocksOf 1)) = some 1 := by
    norm_num [adjustSizeFuel, distgenGcd_eq_gcd, blocksOf, strideOf, BLOCKLEN]
  exact ⟨h, chainBuilder_single_cycle false 1 1 1 h⟩

/-- Claim C4: for every normalized pair `(B, S)` produced by `initBufs`
from a positive largest distance `D`, the sequential strided walk of
`runBench` case 0 and the dependency-chain traversal of case 1 starting
from offset 0 visit exactly the same sequence of entry offsets (hence
the identical set): the chain is the same cycle, traversed here from the
common starting point 0. -/
theorem seq_chain_same_offsets (pr : Bool) (D fuel B : Nat) (p : Nat × Buffer)
    (hD : 1 ≤ D)
    (hadj : adjustSizeFuel fuel (blocksOf D) (strideOf pr (blocksOf D)) = some B)
    (hbuild : buildChain B (strideOf pr (blocksOf D)) = some p) :
    ∀ n, seqOffsets (idxMaxOf B) (idxIncrOf (strideOf pr (blocksOf D))) n 0
      = chainOffsets p.2 n 0 := by
  set S := strideOf pr (blocksOf D) with hSdef
  obtain ⟨hle, hcases⟩ := progPair_facts hadj
  have hB0 : 1 ≤ blocksOf D := by
    unfold blocksOf BLOCKLEN
    omega
  have hB : 1 ≤ B := le_trans hB0 hle
  rcases hcases with h0 | ⟨_, hS, hco⟩
  · omega
  · obtain ⟨buf', hrun, hlink, _⟩ := buildChain_spec hB hS hco
    rw [hrun] at hbuild
    injection hbuild with hbuild
    have hp2 : p.2 = buf' := by
      rw [← hbuild]
    have hall := followNext_cycle hB hlink
    intro n
    have h0 : cyclePos B S 0 = 0 := by unfold cyclePos; simp
    rw [hp2, idxMaxOf_eq, idxIncrOf_eq, ← h0, seqOffsets_cycle hB hS n 0,
      chainOffsets_cycle hall n 0]

theorem seq_chain_same_offsets_witness :
    (1 ≤ 1) ∧
      (adjustSizeFuel 1 (blocksOf 1) (strideOf false (blocksOf 1)) = some 1) ∧
      ∃ p, buildChain 1 (strideOf false (blocksOf 1)) = some p ∧
        ∀ n, seqOffsets (idxMaxOf 1) (idxIncrOf (strideOf false (blocksOf 1))) n 0
          = chainOffsets p.2 n 0 := by
  have hadj : adjustSizeFuel 1 (blocksOf 1) (strideOf false (blocksOf 1)) = some 1 := by
    norm_num [adjustSizeFuel, distgenGcd_eq_gcd, blocksOf, strideOf, BLOCKLEN]
  have hsome : (buildChain 1 (strideOf false (blocksOf 1))).isSome = true := by rfl
  refine ⟨le_refl 1, hadj, (buildChain 1 (strideOf false (blocksOf 1))).get hsome, ?_, ?_⟩
  · exact (Option.some_get hsome).symm
  · exact seq_chain_same_offsets false 1 1 1 _ (le_refl 1) hadj (Option.some_get hsome).symm

/-! ### Benchmark-executor lemmas -/

theorem runTraversal_ro {bt : Nat} (M I m : Nat) (hbt : bt ≤ 1) (buf : Buffer) (l : ℚ) :
    ∃ l', runTraversal bt M I m buf l = some (buf, l') := by
  rcases Nat.le_one_iff_eq_zero_or_eq_one.mp hbt with rfl | rfl
  · exact ⟨_, rfl⟩
  · exact ⟨_, rfl⟩

theorem runDist_ro {bt : Nat} (M I : Nat) (hbt : bt ≤ 1) (dc : DistCfg) :
    ∀ (k : Nat) (buf : Buffer) (l : ℚ) (a : Nat),
      ∃ l' a', runDist bt M I dc k buf l a = some (buf, l', a') := by
  intro k
  induction k with
  | zero => intro buf l a; exact ⟨l, a, rfl⟩
  | succ k ih =>
    intro buf l a
    obtain ⟨l1, htr⟩ := runTraversal_ro M I dc.dBlocks hbt buf l
    obtain ⟨l', a', hrec⟩ := ih buf l1 (a + dc.dBlocks)
    refine ⟨l', a', ?_⟩
    rw [runDist, htr]
    exact hrec

theorem runDists_ro {bt : Nat} (M I : Nat) (hbt : bt ≤ 1) :
    ∀ (ds : List DistCfg) (buf : Buffer) (l : ℚ) (a : Nat),
      ∃ l' a', runDists bt M I ds buf l a = some (buf, l', a') := by
  intro ds
  induction ds with
  | nil => intro buf l a; exact ⟨l, a, rfl⟩
  | cons dc rest ih =>
    intro buf l a
    obtain ⟨l1, a1, h1⟩ := runDist_ro M I hbt dc dc.dIter buf (l + (buf 0).v) a
    obtain ⟨l', a', h2⟩ := ih buf l1 a1
    refine ⟨l', a', ?_⟩
    rw [runDists, h1]
    exact h2

theorem runIters_ro {bt : Nat} (M I : Nat) (hbt : bt ≤ 1) (ds : List DistCfg) :
    ∀ (i : Nat) (buf : Buffer) (l : ℚ) (a : Nat),
      ∃ l' a', runIters bt M I ds i buf l a = some (buf, l', a') := by
  intro i
  induction i with
  | zero => intro buf l a; exact ⟨l, a, rfl⟩
  | succ i ih =>
    intro buf l a
    obtain ⟨l1, a1, h1⟩ := runDists_ro M I hbt ds buf (l + (buf 0).v) a
    obtain ⟨l', a', h2⟩ := ih buf l1 a1
    refine ⟨l', a', ?_⟩
    rw [runIters, h1]
    exact h2

theorem runTraversal_total {bt : Nat} (M I m : Nat) (hbt : bt ≤ 3) (buf : Buffer) (l : ℚ) :
    ∃ r, runTraversal bt M I m buf l = some r := by
  interval_cases bt
  · exact ⟨_, rfl⟩
  · exact ⟨_, rfl⟩
  · exact ⟨_, rfl⟩
  · exact ⟨_, rfl⟩

theorem runDist_count {bt : Nat} (M I : Nat) (hbt : bt ≤ 3) (dc : DistCfg) :
    ∀ (k : Nat) (buf : Buffer) (l : ℚ) (a : Nat),
      ∃ buf' l', runDist bt M I dc k buf l a = some (buf', l', a + k * dc.dBlocks) := by
  intro k
  induction k with
  | zero => intro buf l a; exact ⟨buf, l, by simp [runDist]⟩
  | succ k ih =>
    intro buf l a
    obtain ⟨r, htr⟩ := runTraversal_total M I dc.dBlocks hbt buf l
    obtain ⟨b1, l1⟩ := r
    obtain ⟨buf', l', hrec⟩ := ih b1 l1 (a + dc.dBlocks)
    refine ⟨buf', l', ?_⟩
    have harith : a + dc.dBlocks + k * dc.dBlocks = a + (k + 1) * dc.dBlocks := by ring
    rw [runDist, htr, ← harith]
    exact hrec

theorem runDists_count {bt : Nat} (M I : Nat) (hbt : bt ≤ 3) :
    ∀ (ds : List DistCfg) (buf : Buffer) (l : ℚ) (a : Nat),
      ∃ buf' l', runDists bt M I ds buf l a
        = some (buf', l', a + (ds.map fun d => d.dIter * d.dBlocks).sum) := by
  intro ds
  induction ds with
  | nil => intro buf l a; exact ⟨buf, l, by simp [runDists]⟩
  | cons dc rest ih =>
    intro buf l a
    obtain ⟨b1, l1, h1⟩ := runDist_count M I hbt dc dc.dIter buf (l + (buf 0).v) a
    obtain ⟨buf', l', h2⟩ := ih b1 l1 (a + dc.dIter * dc.dBlocks)
    refine ⟨buf', l', ?_⟩
    rw [runDists, h1, List.map_cons, List.sum_cons, ← Nat.add_assoc]
    exact h2

theorem runIters_count {bt : Nat} (M I : Nat) (hbt : bt ≤ 3) (ds : List DistCfg) :
    ∀ (i : Nat) (buf : Buffer) (l : ℚ) (a : Nat),
      ∃ buf' l', runIters bt M I ds i buf l a
        = some (buf', l', a + i * (ds.map fun d => d.dIter * d.dBlocks).sum) := by
  intro i
  induction i with
  | zero => intro buf l a; exact ⟨buf, l, by simp [runIters]⟩
  | succ i ih =>
    intro buf l a
    obtain ⟨b1, l1, h1⟩ := runDists_count M I hbt ds buf (l + (buf 0).v) a
    obtain ⟨buf', l', h2⟩ := ih b1 l1 (a + (ds.map fun d => d.dIter * d.dBlocks).sum)
    refine ⟨buf', l', ?_⟩
    have harith : a + (ds.map fun d => d.dIter * d.dBlocks).sum
        + i * (ds.map fun d => d.dIter * d.dBlocks).sum
        = a + (i + 1) * (ds.map fun d => d.dIter * d.dBlocks).sum := by ring
    rw [runIters, h1, ← harith]
    exact h2

theorem walkSeqRead_shift (buf : Buffer) (M I : Nat) :
    ∀ (n idx : Nat) (l x : ℚ),
      walkSeqRead buf M I n idx (l + x) = walkSeqRead buf M I n idx l + x := by
  intro n
  induction n with
  | zero => intro idx l x; rfl
  | succ n ih =>
    intro idx l x
    simp only [walkSeqRead]
    rw [add_right_comm l x ((buf idx).v)]
    exact ih (wrapStep M I idx) (l + (buf idx).v) x

theorem walkChainRead_shift (buf : Buffer) :
    ∀ (n p : Nat) (l x : ℚ),
      walkChainRead buf n p (l + x) = walkChainRead buf n p l + x := by
  intro n
  induction n with
  | zero => intro p l x; rfl
  | succ n ih =>
    intro p l x
    simp only [walkChainRead]
    rw [add_right_comm l x ((buf p).v)]
    exact ih (followNext buf p) (l + (buf p).v) x

theorem walkSeqWrite_shift (M I : Nat) :
    ∀ (n : Nat) (buf : Buffer) (idx : Nat) (l x : ℚ),
      walkSeqWrite M I n buf idx (l + x)
        = ((walkSeqWrite M I n buf idx l).1, (walkSeqWrite M I n buf idx l).2 + x) := by
  intro n
  induction n with
  | zero => intro buf idx l x; rfl
  | succ n ih =>
    intro buf idx l x
    simp only [walkSeqWrite]
    rw [add_right_comm l x ((buf idx).v + 1)]
    exact ih (updateV buf idx ((buf idx).v + 1)) (wrapStep M I idx) (l + ((buf idx).v + 1)) x

theorem walkChainWrite_shift :
    ∀ (n : Nat) (buf : Buffer) (p : Nat) (l x : ℚ),
      walkChainWrite n buf p (l + x)
        = ((walkChainWrite n buf p l).1, (walkChainWrite n buf p l).2 + x) := by
  intro n
  induction n with
  | zero => intro buf p l x; rfl
  | succ n ih =>
    intro buf p l x
    simp only [walkChainWrite]
    rw [add_right_comm l x ((buf p).v + 1)]
    exact ih (updateV buf p constV) (followNext buf p) (l + ((buf p).v + 1)) x

theorem runTraversal_shift (bt M I m : Nat) (buf : Buffer) (l x : ℚ) :
    runTraversal bt M I m buf (l + x)
      = (runTraversal bt M I m buf l).map fun r => (r.1, r.2 + x) := by
  rcases bt with _ | _ | _ | _ | n
  · simp [runTraversal, walkSeqRead_shift]
  · simp [runTraversal, walkChainRead_shift]
  · simp [runTraversal, walkSeqWrite_shift]
  · simp [runTraversal, walkChainWrite_shift]
  · rfl

theorem runDist_shift (bt M I : Nat) (dc : DistCfg) :
    ∀ (k : Nat) (buf : Buffer) (l x : ℚ) (a : Nat),
      runDist bt M I dc k buf (l + x) a
        = (runDist bt M I dc k buf l a).map fun r => (r.1, r.2.1 + x, r.2.2) := by
  intro k
  induction k with
  | zero => intro buf l x a; rfl
  | succ k ih =>
    intro buf l x a
    cases htr : runTraversal bt M I dc.dBlocks buf l with
    | none =>
      rw [runDist, runDist, runTraversal_shift, htr]
      rfl
    | some r =>
      obtain ⟨b1, l1⟩ := r
      rw [runDist, runDist, runTraversal_shift, htr]
      exact ih b1 l1 x (a + dc.dBlocks)

theorem runDists_shift (bt M I : Nat) :
    ∀ (ds : List DistCfg) (buf : Buffer) (l x : ℚ) (a : Nat),
      runDists bt M I ds buf (l + x) a
        = (runDists bt M I ds buf l a).map fun r => (r.1, r.2.1 + x, r.2.2) := by
  intro ds
  induction ds with
  | nil => intro buf l x a; rfl
  | cons dc rest ih =>
    intro buf l x a
    rw [runDists, runDists, add_right_comm l x ((buf 0).v), runDist_shift]
    cases hd : runDist bt M I dc dc.dIter buf (l + (buf 0).v) a with
    | none => rfl
    | some r =>
      obtain ⟨b1, r2⟩ := r
      obtain ⟨l1, a1⟩ := r2
      exact ih b1 l1 x a1

theorem runIters_shift (bt M I : Nat) (ds : List DistCfg) :
    ∀ (i : Nat) (buf : Buffer) (l x : ℚ) (a : Nat),
      runIters bt M I ds i buf (l + x) a
        = (runIters bt M I ds i buf l a).map fun r => (r.1, r.2.1 + x, r.2.2) := by
  intro i
  induction i with
  | zero => intro buf l x a; rfl
  | succ i ih =>
    intro buf l x a
    rw [runIters, runIters, add_right_comm l x ((buf 0).v), runDists_shift]
    cases hd : runDists bt M I ds buf (l + (buf 0).v) a with
    | none => rfl
    | some r =>
      obtain ⟨b1, r2⟩ := r
      obtain ⟨l1, a1⟩ := r2
      exact ih b1 l1 x a1

/-! ### Claims C8, C9, C10 -/

/-- Claim C8: with `doWrite = 0` (benchType 0 or 1, read-only sequential or
read-only chain traversal) `runBench` returns the buffer with every entry —
in particular every payload value `v` — unchanged, for every initialized
buffer, iteration count, starting sum and access count; since this holds
for an arbitrary buffer state, any number of consecutive read-only calls
also leaves the buffer unchanged. -/
theorem runBench_readonly_preserves_buffer (dists : List DistCfg) (blocks blockDiff : Nat)
    (buf : Buffer) (iter depChain : Nat) (sum : ℚ) (aCount : Nat) (hdc : depChain ≤ 1) :
    ∃ sum' aCount', runBench dists blocks blockDiff buf iter depChain 0 sum aCount
      = some (buf, sum', aCount') := by
  unfold runBench
  exact runIters_ro (idxMaxOf blocks) (idxIncrOf blockDiff) (by omega) dists iter buf sum aCount

theorem runBench_readonly_preserves_buffer_witness :
    (1 : Nat) ≤ 1 ∧
      ∃ sum' aCount', runBench [⟨1, 1⟩] 1 1 initBuf 3 1 0 0 0 = some (initBuf, sum', aCount') :=
  ⟨by decide, runBench_readonly_preserves_buffer [⟨1, 1⟩] 1 1 initBuf 3 1 0 0 (by decide)⟩

/-- Claim C9: one `runBench` call with iteration count `iter` increases the
access counter by exactly `iter` times the sum over registered distances of
`distIter[d] * distBlocks[d]` (the counter is bumped by `distBlocks[d]`
once per traversal, before the switch, in every mode); the spec example
(distances 4096 and 1024, 64-byte blocks) gives 128 per outer iteration —
see the witness. -/
theorem runBench_aCount_exact (dists : List DistCfg) (blocks blockDiff : Nat) (buf : Buffer)
    (iter depChain doWrite : Nat) (sum : ℚ) (aCount : Nat)
    (hdc : depChain ≤ 1) (hdw : doWrite ≤ 1) :
    ∃ buf' sum', runBench dists blocks blockDiff buf iter depChain doWrite sum aCount
      = some (buf', sum', aCount + iter * (dists.map fun d => d.dIter * d.dBlocks).sum) := by
  unfold runBench
  exact runIters_count (idxMaxOf blocks) (idxIncrOf blockDiff) (by omega) dists iter buf sum aCount

theorem runBench_aCount_exact_witness :
    ((0 : Nat) ≤ 1 ∧ (0 : Nat) ≤ 1) ∧
      mkDists (addDist (addDist [] 4096) 1024) = [⟨64, 1⟩, ⟨16, 4⟩] ∧
      ∃ buf' sum', runBench (mkDists (addDist (addDist [] 4096) 1024)) 64 1 initBuf 1 0 0 0 0
        = some (buf', sum', 0 + 1 * 128) := by
  refine ⟨⟨by decide, by decide⟩, by decide, ?_⟩
  have hsum : ((mkDists (addDist (addDist [] 4096) 1024)).map fun d => d.dIter * d.dBlocks).sum
      = 128 := by decide
  have h := runBench_aCount_exact (mkDists (addDist (addDist [] 4096) 1024)) 64 1 initBuf
    1 0 0 0 0 (by decide) (by decide)
  rw [hsum] at h
  exact h

/-- Claim C10: `runBench` accumulates into the caller-supplied sum rather
than overwriting it: the run started at sum `s` produces exactly `s` plus
the total the same run accumulates when started at sum 0 (that total is
the sum of all payload values read during the call, since `lsum` starts at
`*sum` and only ever has read payloads added to it, and neither the reads
nor the writes depend on `lsum`); in particular with iteration count 0 the
sum (and everything else) is returned unchanged. -/
theorem runBench_sum_accumulates (dists : List DistCfg) (blocks blockDiff : Nat)
    (buf : Buffer) (iter depChain doWrite : Nat) (s : ℚ) (a : Nat)
    (hdc : depChain ≤ 1) (hdw : doWrite ≤ 1) :
    (∃ buf' total a',
        runBench dists blocks blockDiff buf iter depChain doWrite 0 a
          = some (buf', total, a') ∧
        runBench dists blocks blockDiff buf iter depChain doWrite s a
          = some (buf', s + total, a')) ∧
      (iter = 0 →
        runBench dists blocks blockDiff buf iter depChain doWrite s a = some (buf, s, a)) := by
  constructor
  · obtain ⟨buf', total, h0run⟩ := runIters_count (idxMaxOf blocks) (idxIncrOf blockDiff)
      (show depChain + 2 * doWrite ≤ 3 by omega) dists iter buf 0 a
    refine ⟨buf', total, a + iter * (dists.map fun d => d.dIter * d.dBlocks).sum, h0run, ?_⟩
    have hshift := runIters_shift (depChain + 2 * doWrite) (idxMaxOf blocks)
      (idxIncrOf blockDiff) dists iter buf 0 s a
    rw [h0run, zero_add] at hshift
    simp only [Option.map_some'] at hshift
    unfold runBench
    rw [hshift, add_comm total s]
  · intro h0
    subst h0
    rfl

theorem runBench_sum_accumulates_witness :
    ((0 : Nat) ≤ 1 ∧ (1 : Nat) ≤ 1) ∧
      ((∃ buf' total a',
          runBench [⟨1, 1⟩] 1 1 initBuf 2 0 1 0 5 = some (buf', total, a') ∧
          runBench [⟨1, 1⟩] 1 1 initBuf 2 0 1 3 5 = some (buf', 3 + total, a')) ∧
        ((2 : Nat) = 0 → runBench [⟨1, 1⟩] 1 1 initBuf 2 0 1 3 5 = some (initBuf, 3, 5))) :=
  ⟨⟨by decide, by decide⟩,
    runBench_sum_accumulates [⟨1, 1⟩] 1 1 initBuf 2 0 1 3 5 (by decide) (by decide)⟩

end Distgen
